import Mathlib

set_option maxHeartbeats 1000000

/-
Verification of the kingnstar VCS core (src/kingnstar/objects.py,
src/kingnstar/repo.py, src/build/lib/kingnstar/security.py).

The development has two layers.

Layer A models the content-addressed object store of objects.py at the
byte level: object contents are JSON values (the program only ever stores
null, strings, arrays and objects), serialized exactly as Python's
json.dumps with default options (separators ", " and ": ", ensure_ascii)
and parsed back as json.loads does on that output language.  The SHA-1
digest is kept as an explicit function parameter (an ideal digest): none
of the verified properties depend on its internal structure, only on it
being a function (and, where stated, injective).

Layer B models repo.py's Repository as a state machine over the
working-directory files, the object store, the branch records, HEAD and
the staging index, with each operation translated from the Python source.
-/

/-
JSON values as produced and consumed by the kingnstar object store.
The three mutually inductive types mirror Python values / lists /
dicts; the program only ever stores null, strings, lists and dicts, so
numbers and booleans are not modelled.
-/
mutual

inductive Jval where
  | null : Jval
  | str : String → Jval
  | arr : Jarr → Jval
  | obj : Jobj → Jval

inductive Jarr where
  | nil : Jarr
  | cons : Jval → Jarr → Jarr

inductive Jobj where
  | nil : Jobj
  | cons : String → Jval → Jobj → Jobj

end

deriving instance DecidableEq for Jval
deriving instance DecidableEq for Jarr
deriving instance DecidableEq for Jobj

/-- Convert a Lean list of JSON values into a `Jarr`. -/
def Jarr.ofList : List Jval → Jarr
  | [] => .nil
  | v :: rest => .cons v (Jarr.ofList rest)

/-- Convert a Lean association list into a `Jobj` (a Python dict literal,
in insertion order). -/
def Jobj.ofList : List (String × Jval) → Jobj
  | [] => .nil
  | (k, v) :: rest => .cons k v (Jobj.ofList rest)

/-- Dict lookup: `d.get(k)` on a Python dict, returning the value of the
first (and in the program, only) binding of `k`. -/
def Jobj.get : Jobj → String → Option Jval
  | .nil, _ => none
  | .cons k v rest, key => if k = key then some v else Jobj.get rest key

/-- Convert a `Jarr` back into a Lean list. -/
def Jarr.toList : Jarr → List Jval
  | .nil => []
  | .cons v rest => v :: Jarr.toList rest

/-- Lowercase hex digit for a nibble, as Python's `'%04x'` formatting
uses. -/
def hexDigitChar (n : Nat) : Char :=
  match n with
  | 0 => '0' | 1 => '1' | 2 => '2' | 3 => '3' | 4 => '4'
  | 5 => '5' | 6 => '6' | 7 => '7' | 8 => '8' | 9 => '9'
  | 10 => 'a' | 11 => 'b' | 12 => 'c' | 13 => 'd' | 14 => 'e'
  | _ => 'f'

/-- Four lowercase hex digits of `n < 0x10000`, most significant first
(the `XXXX` of a JSON `\uXXXX` escape). -/
def hex4 (n : Nat) : List Char :=
  [hexDigitChar (n / 4096 % 16), hexDigitChar (n / 256 % 16),
   hexDigitChar (n / 16 % 16), hexDigitChar (n % 16)]

/-- Escape one character the way `json.dumps` does with its default
`ensure_ascii=True`: backslash, quote and the five short control escapes
get two-character forms, printable ASCII is kept verbatim, everything
else becomes `\uXXXX` (a surrogate pair for astral characters). -/
def escChar (c : Char) : List Char :=
  if c = '"' then ['\\', '"']
  else if c = '\\' then ['\\', '\\']
  else if 0x20 ≤ c.toNat ∧ c.toNat ≤ 0x7e then [c]
  else if c.toNat = 8 then ['\\', 'b']
  else if c.toNat = 9 then ['\\', 't']
  else if c.toNat = 10 then ['\\', 'n']
  else if c.toNat = 12 then ['\\', 'f']
  else if c.toNat = 13 then ['\\', 'r']
  else if c.toNat < 0x10000 then '\\' :: 'u' :: hex4 c.toNat
  else ('\\' :: 'u' :: hex4 (0xd800 + (c.toNat - 0x10000) / 0x400)) ++
       ('\\' :: 'u' :: hex4 (0xdc00 + (c.toNat - 0x10000) % 0x400))

/-- Escaped body of a JSON string literal, including the closing quote. -/
def escBody : List Char → List Char
  | [] => ['"']
  | c :: cs => escChar c ++ escBody cs

/-- Serialized JSON string literal (opening quote, escaped body, closing
quote), as `json.dumps` renders a Python `str`. -/
def escStr (s : String) : List Char :=
  '"' :: escBody s.data

/-
Serialization of JSON values exactly as `json.dumps` with its default
separators `", "` and `": "` renders them.
-/
mutual

def Jval.dump : Jval → List Char
  | .null => ['n', 'u', 'l', 'l']
  | .str s => escStr s
  | .arr xs => '[' :: (Jarr.dump xs ++ [']'])
  | .obj fs => '\x7b' :: (Jobj.dump fs ++ ['\x7d'])

def Jarr.dump : Jarr → List Char
  | .nil => []
  | .cons v .nil => v.dump
  | .cons v (.cons w rest) => v.dump ++ ',' :: ' ' :: Jarr.dump (.cons w rest)

def Jobj.dump : Jobj → List Char
  | .nil => []
  | .cons k v .nil => escStr k ++ ':' :: ' ' :: v.dump
  | .cons k v (.cons k2 v2 rest) =>
      escStr k ++ ':' :: ' ' :: v.dump ++ ',' :: ' ' :: Jobj.dump (.cons k2 v2 rest)

end

/-- String form of `json.dumps` output for a JSON value. -/
def jsonDumps (v : Jval) : String := ⟨v.dump⟩

/-- Prepend a decoded character to a string-parse result. -/
def mapCons (c : Char) : Option (List Char × List Char) → Option (List Char × List Char)
  | some (cs, rest) => some (c :: cs, rest)
  | none => none

/-- Decode a two-character JSON escape (`json.loads` accepts exactly
these eight plus `\uXXXX`). -/
def unescShort (c : Char) : Option Char :=
  if c = '"' then some '"'
  else if c = '\\' then some '\\'
  else if c = '/' then some '/'
  else if c = 'b' then some (Char.ofNat 8)
  else if c = 'f' then some (Char.ofNat 12)
  else if c = 'n' then some '\n'
  else if c = 'r' then some (Char.ofNat 13)
  else if c = 't' then some '\t'
  else none

/-- Numeric value of one hex digit, upper or lower case. -/
def hexDigitVal? (c : Char) : Option Nat :=
  if c = '0' then some 0 else if c = '1' then some 1
  else if c = '2' then some 2 else if c = '3' then some 3
  else if c = '4' then some 4 else if c = '5' then some 5
  else if c = '6' then some 6 else if c = '7' then some 7
  else if c = '8' then some 8 else if c = '9' then some 9
  else if c = 'a' ∨ c = 'A' then some 10 else if c = 'b' ∨ c = 'B' then some 11
  else if c = 'c' ∨ c = 'C' then some 12 else if c = 'd' ∨ c = 'D' then some 13
  else if c = 'e' ∨ c = 'E' then some 14 else if c = 'f' ∨ c = 'F' then some 15
  else none

/-- Read four hex digits from the head of the input (the `XXXX` of a
`\uXXXX` escape), returning their value and the remaining input. -/
def decodeU : List Char → Option (Nat × List Char)
  | h1 :: h2 :: h3 :: h4 :: rest =>
    match hexDigitVal? h1, hexDigitVal? h2, hexDigitVal? h3, hexDigitVal? h4 with
    | some a, some b, some c, some d => some (a * 4096 + b * 256 + c * 16 + d, rest)
    | _, _, _, _ => none
  | _ => none

/-- Interpret the value of a `\uXXXX` escape: a high surrogate demands a
following `\uXXXX` low surrogate and the pair recombines into one
character, as `json.loads` does; a lone low surrogate is rejected. -/
def decodeLowSur (n : Nat) : List Char → Option (Char × List Char)
  | '\\' :: 'u' :: rest3 =>
    (decodeU rest3).bind fun q =>
      if 0xdc00 ≤ q.1 ∧ q.1 ≤ 0xdfff then
        some (Char.ofNat (0x10000 + (n - 0xd800) * 0x400 + (q.1 - 0xdc00)), q.2)
      else none
  | _ => none

def decodeUVal : Nat × List Char → Option (Char × List Char)
  | (n, rest2) =>
    if 0xd800 ≤ n ∧ n ≤ 0xdbff then decodeLowSur n rest2
    else if 0xdc00 ≤ n ∧ n ≤ 0xdfff then none
    else some (Char.ofNat n, rest2)

/-- Decode one JSON escape sequence (the backslash already consumed):
either a short escape or `\uXXXX`. -/
def decodeEsc : List Char → Option (Char × List Char)
  | [] => none
  | e :: rest =>
    if e = 'u' then (decodeU rest).bind decodeUVal
    else (unescShort e).map fun u => (u, rest)

/-- Parse the body of a JSON string literal (the opening quote already
consumed), decoding escapes, as `json.loads` does; returns the decoded
characters and the input after the closing quote.  The fuel argument
only bounds the number of decoded characters; callers supply enough for
any serialized string. -/
def parseStrBody : Nat → List Char → Option (List Char × List Char)
  | 0, _ => none
  | _ + 1, [] => none
  | fuel + 1, c :: rest =>
    if c = '"' then some ([], rest)
    else if c = '\\' then
      match decodeEsc rest with
      | some (u, rest2) => mapCons u (parseStrBody fuel rest2)
      | none => none
    else mapCons c (parseStrBody fuel rest)

/-
Recursive-descent parser for the output language of `Jval.dump`,
modelling `json.loads` applied to `json.dumps` output.  The fuel
argument only bounds nesting of the descent; `jsonLoads` below supplies
enough for any dumped value.
-/
mutual

def parseVal : Nat → List Char → Option (Jval × List Char)
  | 0, _ => none
  | _ + 1, 'n' :: 'u' :: 'l' :: 'l' :: rest => some (.null, rest)
  | fuel + 1, '"' :: rest => (parseStrBody fuel rest).map (fun p => (.str ⟨p.1⟩, p.2))
  | _ + 1, '[' :: ']' :: rest => some (.arr .nil, rest)
  | fuel + 1, '[' :: rest => (parseArrItems fuel rest).map (fun p => (.arr p.1, p.2))
  | _ + 1, '\x7b' :: '\x7d' :: rest => some (.obj .nil, rest)
  | fuel + 1, '\x7b' :: rest => (parseObjItems fuel rest).map (fun p => (.obj p.1, p.2))
  | _ + 1, _ => none
termination_by fuel _ => (fuel, 0)

def parseArrItems : Nat → List Char → Option (Jarr × List Char)
  | 0, _ => none
  | fuel + 1, cs => (parseVal fuel cs).bind (arrCont fuel)
termination_by fuel _ => (fuel, 1)

def arrCont : Nat → Jval × List Char → Option (Jarr × List Char)
  | _, (v, ']' :: rest) => some (.cons v .nil, rest)
  | fuel, (v, ',' :: ' ' :: rest) =>
    (parseArrItems fuel rest).map fun q => (.cons v q.1, q.2)
  | _, _ => none
termination_by fuel _ => (fuel, 2)

def parseObjItems : Nat → List Char → Option (Jobj × List Char)
  | 0, _ => none
  | fuel + 1, '"' :: cs => (parseStrBody fuel cs).bind (objKeyCont fuel)
  | _ + 1, _ => none
termination_by fuel _ => (fuel, 1)

def objKeyCont : Nat → List Char × List Char → Option (Jobj × List Char)
  | fuel, (k, ':' :: ' ' :: rest) => (parseVal fuel rest).bind (objValCont fuel ⟨k⟩)
  | _, _ => none
termination_by fuel _ => (fuel, 3)

def objValCont : Nat → String → Jval × List Char → Option (Jobj × List Char)
  | _, k, (v, '\x7d' :: rest2) => some (.cons k v .nil, rest2)
  | fuel, k, (v, ',' :: ' ' :: rest2) =>
    (parseObjItems fuel rest2).map fun q => (.cons k v q.1, q.2)
  | _, _, _ => none
termination_by fuel _ _ => (fuel, 2)

end

/-- Model of `json.loads` on serialized object files: parse a value and
require the input to be fully consumed. -/
def jsonLoads (s : String) : Option Jval :=
  match parseVal (s.length + 1) s.data with
  | some (v, []) => some v
  | _ => none

/-
Fuel measure for the parser: enough fuel to descend through a value.
-/
mutual

def Jval.fsize : Jval → Nat
  | .null => 1
  | .str s => s.length + 2
  | .arr xs => xs.fsize + 1
  | .obj fs => fs.fsize + 1

def Jarr.fsize : Jarr → Nat
  | .nil => 0
  | .cons v rest => v.fsize + rest.fsize + 1

def Jobj.fsize : Jobj → Nat
  | .nil => 0
  | .cons k v rest => k.length + v.fsize + rest.fsize + 2

end

theorem hexDigitVal_hexDigitChar (d : Nat) (hd : d < 16) :
    hexDigitVal? (hexDigitChar d) = some d := by
  interval_cases d <;> rfl

theorem char_toNat_valid (c : Char) :
    c.toNat < 0xd800 ∨ (0xdfff < c.toNat ∧ c.toNat < 0x110000) := by
  rcases c.valid with h | ⟨h1, h2⟩
  · left; exact_mod_cast h
  · right; exact ⟨by exact_mod_cast h1, by exact_mod_cast h2⟩

theorem decodeU_hex4 (n : Nat) (hn : n < 0x10000) (rest : List Char) :
    decodeU (hex4 n ++ rest) = some (n, rest) := by
  simp only [hex4, List.cons_append, List.nil_append, decodeU]
  rw [hexDigitVal_hexDigitChar _ (Nat.mod_lt _ (by norm_num)),
      hexDigitVal_hexDigitChar _ (Nat.mod_lt _ (by norm_num)),
      hexDigitVal_hexDigitChar _ (Nat.mod_lt _ (by norm_num)),
      hexDigitVal_hexDigitChar _ (Nat.mod_lt _ (by norm_num))]
  simp only [Option.some.injEq, Prod.mk.injEq, and_true]
  omega

theorem decodeEsc_short (e : Char) (he : ¬e = 'u') (rest : List Char) :
    decodeEsc (e :: rest) = (unescShort e).map fun u => (u, rest) := by
  rw [decodeEsc, if_neg he]

theorem parseStrBody_cons (fuel : Nat) (c : Char) (rest : List Char) :
    parseStrBody (fuel + 1) (c :: rest) =
      if c = '"' then some ([], rest)
      else if c = '\\' then
        match decodeEsc rest with
        | some (u, rest2) => mapCons u (parseStrBody fuel rest2)
        | none => none
      else mapCons c (parseStrBody fuel rest) := by
  rw [parseStrBody]

theorem parseStrBody_escChar (c : Char) (fuel : Nat) (tail : List Char) :
    parseStrBody (fuel + 1) (escChar c ++ tail) = mapCons c (parseStrBody fuel tail) := by
  have hval := char_toNat_valid c
  unfold escChar
  split_ifs with h1 h2 h3 h4 h5 h6 h7 h8 h9
  · subst h1
    rw [List.cons_append, List.cons_append, List.nil_append, parseStrBody_cons,
        if_neg (by decide), if_pos rfl, decodeEsc_short _ (by decide)]
    rfl
  · subst h2
    rw [List.cons_append, List.cons_append, List.nil_append, parseStrBody_cons,
        if_neg (by decide), if_pos rfl, decodeEsc_short _ (by decide)]
    rfl
  · simp only [List.cons_append, List.nil_append]
    rw [parseStrBody_cons, if_neg h1, if_neg h2]
  · have hc : c = Char.ofNat 8 := by
      have := Char.ofNat_toNat c; rw [h4] at this; exact this.symm
    subst hc
    rw [List.cons_append, List.cons_append, List.nil_append, parseStrBody_cons,
        if_neg (by decide), if_pos rfl, decodeEsc_short _ (by decide)]
    rfl
  · have hc : c = Char.ofNat 9 := by
      have := Char.ofNat_toNat c; rw [h5] at this; exact this.symm
    subst hc
    rw [List.cons_append, List.cons_append, List.nil_append, parseStrBody_cons,
        if_neg (by decide), if_pos rfl, decodeEsc_short _ (by decide)]
    rfl
  · have hc : c = Char.ofNat 10 := by
      have := Char.ofNat_toNat c; rw [h6] at this; exact this.symm
    subst hc
    rw [List.cons_append, List.cons_append, List.nil_append, parseStrBody_cons,
        if_neg (by decide), if_pos rfl, decodeEsc_short _ (by decide)]
    rfl
  · have hc : c = Char.ofNat 12 := by
      have := Char.ofNat_toNat c; rw [h7] at this; exact this.symm
    subst hc
    rw [List.cons_append, List.cons_append, List.nil_append, parseStrBody_cons,
        if_neg (by decide), if_pos rfl, decodeEsc_short _ (by decide)]
    rfl
  · have hc : c = Char.ofNat 13 := by
      have := Char.ofNat_toNat c; rw [h8] at this; exact this.symm
    subst hc
    rw [List.cons_append, List.cons_append, List.nil_append, parseStrBody_cons,
        if_neg (by decide), if_pos rfl, decodeEsc_short _ (by decide)]
    rfl
  · -- basic-plane escape
    simp only [List.cons_append]
    rw [parseStrBody_cons, if_neg (by decide), if_pos rfl]
    rw [decodeEsc, if_pos rfl, decodeU_hex4 _ h9, Option.some_bind]
    rw [decodeUVal]
    have hns : ¬(0xd800 ≤ c.toNat ∧ c.toNat ≤ 0xdbff) := by omega
    have hns2 : ¬(0xdc00 ≤ c.toNat ∧ c.toNat ≤ 0xdfff) := by omega
    rw [if_neg hns, if_neg hns2]
    simp only [Char.ofNat_toNat]
  · -- astral character: surrogate pair
    simp only [List.cons_append, List.append_assoc]
    rw [parseStrBody_cons, if_neg (by decide), if_pos rfl]
    have hq : (c.toNat - 0x10000) / 0x400 < 0x400 := by
      have : c.toNat < 0x110000 := by omega
      omega
    have hmlt : (c.toNat - 0x10000) % 0x400 < 0x400 := Nat.mod_lt _ (by omega)
    have hhi : 0xd800 + (c.toNat - 0x10000) / 0x400 < 0x10000 := by omega
    have hlo : 0xdc00 + (c.toNat - 0x10000) % 0x400 < 0x10000 := by omega
    rw [decodeEsc, if_pos rfl, decodeU_hex4 _ hhi, Option.some_bind]
    rw [decodeUVal, if_pos (by constructor <;> omega)]
    rw [decodeLowSur, decodeU_hex4 _ hlo, Option.some_bind]
    rw [if_pos (by constructor <;> omega)]
    have harith : 0x10000 + (0xd800 + (c.toNat - 0x10000) / 0x400 - 0xd800) * 0x400 +
        (0xdc00 + (c.toNat - 0x10000) % 0x400 - 0xdc00) = c.toNat := by
      have hdm := Nat.div_add_mod (c.toNat - 0x10000) 0x400
      omega
    rw [harith, Char.ofNat_toNat]

theorem parseStrBody_escBody (cs : List Char) : ∀ (fuel : Nat) (tail : List Char),
    cs.length + 1 ≤ fuel → parseStrBody fuel (escBody cs ++ tail) = some (cs, tail) := by
  induction cs with
  | nil =>
    intro fuel tail hf
    match fuel, hf with
    | fuel + 1, _ =>
      rw [escBody, List.cons_append, List.nil_append, parseStrBody_cons, if_pos rfl]
  | cons c cs ih =>
    intro fuel tail hf
    match fuel, hf with
    | fuel + 1, hf =>
      rw [escBody, List.append_assoc, parseStrBody_escChar,
          ih fuel tail (by simpa using Nat.succ_le_succ_iff.mp hf)]
      rfl

theorem Jval.dump_head (v : Jval) :
    ∃ c cs, Jval.dump v = c :: cs ∧ (c = 'n' ∨ c = '"' ∨ c = '[' ∨ c = '\x7b') := by
  cases v with
  | null => exact ⟨'n', _, by rw [Jval.dump], Or.inl rfl⟩
  | str s => exact ⟨'"', _, by rw [Jval.dump, escStr], Or.inr (Or.inl rfl)⟩
  | arr xs => exact ⟨'[', _, by rw [Jval.dump], Or.inr (Or.inr (Or.inl rfl))⟩
  | obj fs => exact ⟨'\x7b', _, by rw [Jval.dump], Or.inr (Or.inr (Or.inr rfl))⟩

theorem Jval.fsize_pos (v : Jval) : 1 ≤ v.fsize := by
  cases v with
  | null => simp [Jval.fsize]
  | str s => simp [Jval.fsize]
  | arr xs => simp [Jval.fsize]
  | obj fs => simp [Jval.fsize]

theorem parseVal_null (f : Nat) (rest : List Char) :
    parseVal (f + 1) ('n' :: 'u' :: 'l' :: 'l' :: rest) = some (.null, rest) := by
  rw [parseVal]

theorem parseVal_quote (f : Nat) (rest : List Char) :
    parseVal (f + 1) ('"' :: rest) =
      (parseStrBody f rest).map (fun p => (.str ⟨p.1⟩, p.2)) := by
  rw [parseVal]

theorem parseVal_arrNil (f : Nat) (rest : List Char) :
    parseVal (f + 1) ('[' :: ']' :: rest) = some (.arr .nil, rest) := by
  rw [parseVal]

theorem parseVal_objNil (f : Nat) (rest : List Char) :
    parseVal (f + 1) ('\x7b' :: '\x7d' :: rest) = some (.obj .nil, rest) := by
  rw [parseVal]

theorem parseVal_arrCons (f : Nat) (c : Char) (rest : List Char) (hc : ¬c = ']') :
    parseVal (f + 1) ('[' :: c :: rest) =
      (parseArrItems f (c :: rest)).map (fun p => (.arr p.1, p.2)) := by
  rw [parseVal]
  exact fun rest2 heq => absurd ((List.cons.injEq _ _ _ _).mp heq).1 hc

theorem parseVal_objCons (f : Nat) (c : Char) (rest : List Char) (hc : ¬c = '\x7d') :
    parseVal (f + 1) ('\x7b' :: c :: rest) =
      (parseObjItems f (c :: rest)).map (fun p => (.obj p.1, p.2)) := by
  rw [parseVal]
  exact fun rest2 heq => absurd ((List.cons.injEq _ _ _ _).mp heq).1 hc

theorem parseArrItems_succ (f : Nat) (cs : List Char) :
    parseArrItems (f + 1) cs = (parseVal f cs).bind (arrCont f) := by
  rw [parseArrItems]

theorem arrCont_close (f : Nat) (v : Jval) (rest : List Char) :
    arrCont f (v, ']' :: rest) = some (.cons v .nil, rest) := by
  rw [arrCont]

theorem arrCont_sep (f : Nat) (v : Jval) (rest : List Char) :
    arrCont f (v, ',' :: ' ' :: rest) =
      (parseArrItems f rest).map fun q => (.cons v q.1, q.2) := by
  rw [arrCont]

theorem parseObjItems_quote (f : Nat) (cs : List Char) :
    parseObjItems (f + 1) ('"' :: cs) = (parseStrBody f cs).bind (objKeyCont f) := by
  rw [parseObjItems]

theorem objKeyCont_colon (f : Nat) (k : List Char) (rest : List Char) :
    objKeyCont f (k, ':' :: ' ' :: rest) = (parseVal f rest).bind (objValCont f ⟨k⟩) := by
  rw [objKeyCont]

theorem objValCont_close (f : Nat) (k : String) (v : Jval) (rest : List Char) :
    objValCont f k (v, '\x7d' :: rest) = some (.cons k v .nil, rest) := by
  rw [objValCont]

theorem objValCont_sep (f : Nat) (k : String) (v : Jval) (rest : List Char) :
    objValCont f k (v, ',' :: ' ' :: rest) =
      (parseObjItems f rest).map fun q => (.cons k v q.1, q.2) := by
  rw [objValCont]

theorem jarr_dump_cons_ex (v : Jval) (r : Jarr) :
    ∃ s, Jarr.dump (.cons v r) = v.dump ++ s := by
  cases r with
  | nil => exact ⟨[], by rw [Jarr.dump, List.append_nil]⟩
  | cons w r2 => exact ⟨_, by rw [Jarr.dump]⟩

theorem jobj_dump_cons_ex (k : String) (v : Jval) (r : Jobj) :
    ∃ t, Jobj.dump (.cons k v r) = '"' :: t := by
  cases r with
  | nil => exact ⟨_, by rw [Jobj.dump, escStr, List.cons_append]⟩
  | cons k2 v2 r2 =>
    exact ⟨_, by rw [Jobj.dump, escStr, List.cons_append, List.cons_append]⟩

theorem parse_dump_fuel : ∀ fuel : Nat,
    (∀ (v : Jval) (rest : List Char), v.fsize ≤ fuel →
      parseVal fuel (v.dump ++ rest) = some (v, rest)) ∧
    (∀ (xs : Jarr) (rest : List Char), xs ≠ .nil → xs.fsize ≤ fuel →
      parseArrItems fuel (Jarr.dump xs ++ ']' :: rest) = some (xs, rest)) ∧
    (∀ (fs : Jobj) (rest : List Char), fs ≠ .nil → fs.fsize ≤ fuel →
      parseObjItems fuel (Jobj.dump fs ++ '\x7d' :: rest) = some (fs, rest)) := by
  intro fuel
  induction fuel with
  | zero =>
    refine ⟨?_, ?_, ?_⟩
    · intro v rest hf
      exact absurd (le_trans (Jval.fsize_pos v) hf) (by omega)
    · intro xs rest hne hf
      cases xs with
      | nil => exact absurd rfl hne
      | cons v r => simp [Jarr.fsize] at hf
    · intro fs rest hne hf
      cases fs with
      | nil => exact absurd rfl hne
      | cons k v r => simp [Jobj.fsize] at hf
  | succ f ih =>
    obtain ⟨ihv, iha, iho⟩ := ih
    refine ⟨?_, ?_, ?_⟩
    · intro v rest hf
      cases v with
      | null =>
        rw [Jval.dump]
        simp only [List.cons_append, List.nil_append]
        exact parseVal_null f rest
      | str s =>
        rw [Jval.dump, escStr]
        simp only [List.cons_append]
        have hl : s.length = s.data.length := rfl
        simp only [Jval.fsize] at hf
        rw [parseVal_quote, parseStrBody_escBody s.data f rest (by omega)]
        rfl
      | arr xs =>
        simp only [Jval.fsize] at hf
        cases xs with
        | nil =>
          rw [Jval.dump, Jarr.dump]
          simp only [List.nil_append, List.cons_append]
          exact parseVal_arrNil f rest
        | cons v r =>
          obtain ⟨c, cs, hd, hc⟩ := Jval.dump_head v
          obtain ⟨s, hs⟩ := jarr_dump_cons_ex v r
          have hinput : Jval.dump (.arr (.cons v r)) ++ rest =
              '[' :: c :: (cs ++ (s ++ (']' :: rest))) := by
            rw [Jval.dump, hs, hd]
            simp [List.append_assoc]
          rw [hinput]
          have hcne : ¬c = ']' := by
            rcases hc with h | h | h | h <;> subst h <;> decide
          rw [parseVal_arrCons f c _ hcne]
          have hback : c :: (cs ++ (s ++ (']' :: rest))) =
              Jarr.dump (.cons v r) ++ ']' :: rest := by
            rw [hs, hd]
            simp [List.append_assoc]
          rw [hback, iha (.cons v r) rest (by intro h; cases h) (by omega)]
          rfl
      | obj fs =>
        simp only [Jval.fsize] at hf
        cases fs with
        | nil =>
          rw [Jval.dump, Jobj.dump]
          simp only [List.nil_append, List.cons_append]
          exact parseVal_objNil f rest
        | cons k v r =>
          obtain ⟨t, ht⟩ := jobj_dump_cons_ex k v r
          have hinput : Jval.dump (.obj (.cons k v r)) ++ rest =
              '\x7b' :: '"' :: (t ++ ('\x7d' :: rest)) := by
            rw [Jval.dump, ht]
            simp [List.append_assoc]
          rw [hinput, parseVal_objCons f '"' _ (by decide)]
          have hback : '"' :: (t ++ ('\x7d' :: rest)) =
              Jobj.dump (.cons k v r) ++ '\x7d' :: rest := by
            rw [ht]
            simp [List.append_assoc]
          rw [hback, iho (.cons k v r) rest (by intro h; cases h) (by omega)]
          rfl
    · intro xs rest hne hf
      cases xs with
      | nil => exact absurd rfl hne
      | cons v r =>
        simp only [Jarr.fsize] at hf
        rw [parseArrItems_succ]
        cases r with
        | nil =>
          rw [Jarr.dump]
          rw [ihv v (']' :: rest) (by simp only [Jarr.fsize] at hf; omega)]
          rw [Option.some_bind, arrCont_close]
        | cons w r2 =>
          rw [Jarr.dump]
          simp only [List.append_assoc, List.cons_append]
          rw [ihv v _ (by omega)]
          rw [Option.some_bind, arrCont_sep]
          rw [iha (.cons w r2) rest (by intro h; cases h) (by omega)]
          rfl
    · intro fs rest hne hf
      cases fs with
      | nil => exact absurd rfl hne
      | cons k v r =>
        simp only [Jobj.fsize] at hf
        have hl : k.length = k.data.length := rfl
        cases r with
        | nil =>
          rw [Jobj.dump, escStr]
          simp only [List.cons_append, List.append_assoc]
          rw [parseObjItems_quote, parseStrBody_escBody k.data f _ (by omega)]
          rw [Option.some_bind, objKeyCont_colon]
          rw [ihv v _ (by omega)]
          rw [Option.some_bind, objValCont_close]
        | cons k2 v2 r2 =>
          rw [Jobj.dump, escStr]
          simp only [List.cons_append, List.append_assoc]
          rw [parseObjItems_quote, parseStrBody_escBody k.data f _ (by omega)]
          rw [Option.some_bind, objKeyCont_colon]
          rw [ihv v _ (by omega)]
          rw [Option.some_bind, objValCont_sep]
          rw [iho (.cons k2 v2 r2) rest (by intro h; cases h) (by omega)]
          rfl

theorem escChar_length_pos (c : Char) : 1 ≤ (escChar c).length := by
  unfold escChar
  split_ifs <;> simp [hex4]

theorem escBody_len (cs : List Char) : cs.length + 1 ≤ (escBody cs).length := by
  induction cs with
  | nil => simp [escBody]
  | cons c cs ih =>
    rw [escBody]
    simp only [List.length_append, List.length_cons]
    have := escChar_length_pos c
    omega

mutual

theorem jval_fsize_le_dump (v : Jval) : v.fsize ≤ v.dump.length := by
  cases v with
  | null => rw [Jval.dump]; simp [Jval.fsize]
  | str s =>
    rw [Jval.dump, escStr]
    have h1 := escBody_len s.data
    have h2 : s.length = s.data.length := rfl
    simp only [Jval.fsize, List.length_cons]
    omega
  | arr xs =>
    rw [Jval.dump]
    have := jarr_fsize_le_dump xs
    simp only [Jval.fsize, List.length_cons, List.length_append, List.length_nil]
    omega
  | obj fs =>
    rw [Jval.dump]
    have := jobj_fsize_le_dump fs
    simp only [Jval.fsize, List.length_cons, List.length_append, List.length_nil]
    omega

theorem jarr_fsize_le_dump (xs : Jarr) : xs.fsize ≤ (Jarr.dump xs).length + 1 := by
  cases xs with
  | nil => simp [Jarr.fsize]
  | cons v r =>
    cases r with
    | nil =>
      rw [Jarr.dump]
      have := jval_fsize_le_dump v
      simp only [Jarr.fsize]
      omega
    | cons w r2 =>
      rw [Jarr.dump]
      have h1 := jval_fsize_le_dump v
      have h2 := jarr_fsize_le_dump (.cons w r2)
      simp only [Jarr.fsize, List.length_append, List.length_cons]
      simp only [Jarr.fsize] at h2
      omega

theorem jobj_fsize_le_dump (fs : Jobj) : fs.fsize ≤ (Jobj.dump fs).length + 1 := by
  cases fs with
  | nil => simp [Jobj.fsize]
  | cons k v r =>
    have hk : k.length = k.data.length := rfl
    have hesc := escBody_len k.data
    cases r with
    | nil =>
      rw [Jobj.dump, escStr]
      have := jval_fsize_le_dump v
      simp only [Jobj.fsize, List.length_append, List.length_cons]
      omega
    | cons k2 v2 r2 =>
      rw [Jobj.dump, escStr]
      have h1 := jval_fsize_le_dump v
      have h2 := jobj_fsize_le_dump (.cons k2 v2 r2)
      simp only [Jobj.fsize, List.length_append, List.length_cons]
      simp only [Jobj.fsize] at h2
      omega

end

theorem jsonLoads_dumps (v : Jval) : jsonLoads (jsonDumps v) = some v := by
  unfold jsonLoads jsonDumps
  have h := (parse_dump_fuel ((Jval.dump v).length + 1)).1 v []
    (by have := jval_fsize_le_dump v; omega)
  rw [List.append_nil] at h
  have hdata : (⟨v.dump⟩ : String).data = v.dump := rfl
  have hlen : (⟨v.dump⟩ : String).length = v.dump.length := rfl
  rw [hlen, hdata, h]

/-- Serialization is injective: a consequence of the parser round trip. -/
theorem jsonDumps_injective : Function.Injective jsonDumps := by
  intro a b hab
  have ha := jsonLoads_dumps a
  have hb := jsonLoads_dumps b
  rw [hab, hb] at ha
  exact ((Option.some.injEq _ _).mp ha).symm

/-- Code-point lexicographic comparison, the order Python's `sorted`
uses on strings. -/
def charListLe : List Char → List Char → Bool
  | [], _ => true
  | _ :: _, [] => false
  | a :: as, b :: bs =>
    if a.toNat < b.toNat then true
    else if b.toNat < a.toNat then false
    else charListLe as bs

/-- Key comparison for `sort_keys=True`. -/
def keyLe (a b : String) : Bool := charListLe a.data b.data

/-- Insert a key/value pair into an already key-sorted field list,
keeping it sorted (ascending, as Python's `sorted` orders dict items). -/
def Jobj.insert (k : String) (v : Jval) : Jobj → Jobj
  | .nil => .cons k v .nil
  | .cons k2 v2 r =>
    if keyLe k k2 then .cons k v (.cons k2 v2 r) else .cons k2 v2 (Jobj.insert k v r)

/-
Recursive key sorting: the effect of `json.dumps(content, sort_keys=True)`
is to render every object's fields in ascending key order; `sortKeys`
realizes that ordering on the value itself so that the sorted dump is
`Jval.dump` of the sorted value.
-/
mutual

def Jval.sortKeys : Jval → Jval
  | .null => .null
  | .str s => .str s
  | .arr xs => .arr (Jarr.sortKeys xs)
  | .obj fs => .obj (Jobj.sortKeys fs)

def Jarr.sortKeys : Jarr → Jarr
  | .nil => .nil
  | .cons v r => .cons v.sortKeys (Jarr.sortKeys r)

def Jobj.sortKeys : Jobj → Jobj
  | .nil => .nil
  | .cons k v r => Jobj.insert k v.sortKeys (Jobj.sortKeys r)

end

/-- Canonical (stably key-ordered) serialization:
`json.dumps(content, sort_keys=True)` of objects.py line 23. -/
def jsonDumpsSorted (v : Jval) : String := ⟨(v.sortKeys).dump⟩

/-- Python string slicing `s[:n]` (by code point, as Python indexes). -/
def pyTake (n : Nat) (s : String) : String := ⟨s.data.take n⟩

/-- Python string slicing `s[n:]`. -/
def pyDrop (n : Nat) (s : String) : String := ⟨s.data.drop n⟩

/-- The object store's on-disk state: shard directory name and filename
to file text (`objects/<2-hex-prefix>/<remaining-hash>`). -/
def Disk := (String × String) → Option String

/-- KingnstarObject.compute_hash (objects.py lines 21-24): the digest of
the canonical serialization.  `digest` stands for SHA-1 hexdigest. -/
def compute_hash (digest : String → String) (content : Jval) : String :=
  digest (jsonDumpsSorted content)

/-- KingnstarObject.write_to_disk (objects.py lines 26-38): split the
hash into a 2-character directory and remaining filename, write the
(unsorted) `json.dumps` of the content there, return the hash. -/
def write_to_disk (digest : String → String) (content : Jval) (d : Disk) : String × Disk :=
  let h := compute_hash digest content
  (h, fun key => if key = (pyTake 2 h, pyDrop 2 h) then some (jsonDumps content) else d key)

/-- read_object (objects.py lines 88-97): look up the file by the same
prefix/suffix split and parse it; `none` when absent. -/
def read_object (objHash : String) (d : Disk) : Option Jval :=
  match d (pyTake 2 objHash, pyDrop 2 objHash) with
  | none => none
  | some text => jsonLoads text

/-- C6: reading back an object after writing it round-trips — read at
the hash returned by the write yields the same content record — and
writing the same object twice leaves the on-disk bytes unchanged and
returns the same hash both times. -/
theorem c6_put_get_round_trip_and_idempotent
    (digest : String → String) (c : Jval) (d : Disk) :
    read_object (write_to_disk digest c d).1 (write_to_disk digest c d).2 = some c ∧
    (write_to_disk digest c (write_to_disk digest c d).2).2 = (write_to_disk digest c d).2 ∧
    (write_to_disk digest c (write_to_disk digest c d).2).1 = (write_to_disk digest c d).1 := by
  refine ⟨?_, ?_, rfl⟩
  · unfold read_object write_to_disk
    simp only [if_pos rfl]
    exact jsonLoads_dumps c
  · unfold write_to_disk
    funext key
    by_cases hk : key = (pyTake 2 (compute_hash digest c), pyDrop 2 (compute_hash digest c))
    · simp [hk]
    · simp [hk]

/-- The content record the Blob constructor builds (objects.py lines
44-60): insertion order "type", "path", "hash", "content", where "hash"
is the digest of the file's text and "content" the text itself. -/
def blobContent (digest : String → String) (file_path : String) (content : String) : Jval :=
  .obj (.cons "type" (.str "blob") (.cons "path" (.str file_path)
    (.cons "hash" (.str (digest content)) (.cons "content" (.str content) .nil))))

theorem sortKeys_blobContent (digest : String → String) (p c : String) :
    (blobContent digest p c).sortKeys =
      .obj (.cons "content" (.str c) (.cons "hash" (.str (digest c))
        (.cons "path" (.str p) (.cons "type" (.str "blob") .nil)))) := by
  unfold blobContent
  rw [Jval.sortKeys, Jobj.sortKeys, Jobj.sortKeys, Jobj.sortKeys, Jobj.sortKeys, Jobj.sortKeys]
  rw [Jval.sortKeys, Jval.sortKeys, Jval.sortKeys, Jval.sortKeys]
  rw [Jobj.insert]
  rw [show Jobj.insert "hash" (.str (digest c)) (.cons "content" (.str c) .nil) =
      .cons "content" (.str c) (.cons "hash" (.str (digest c)) .nil) from by
    rw [Jobj.insert, if_neg (by decide), Jobj.insert]]
  rw [show ∀ w, Jobj.insert "path" w (.cons "content" (.str c)
        (.cons "hash" (.str (digest c)) .nil)) =
      .cons "content" (.str c) (.cons "hash" (.str (digest c)) (.cons "path" w .nil)) from by
    intro w
    rw [Jobj.insert, if_neg (by decide), Jobj.insert, if_neg (by decide), Jobj.insert]]
  rw [show ∀ w, Jobj.insert "type" w (.cons "content" (.str c) (.cons "hash" (.str (digest c))
        (.cons "path" (.str p) .nil))) =
      .cons "content" (.str c) (.cons "hash" (.str (digest c)) (.cons "path" (.str p)
        (.cons "type" w .nil))) from by
    intro w
    rw [Jobj.insert, if_neg (by decide), Jobj.insert, if_neg (by decide), Jobj.insert,
        if_neg (by decide), Jobj.insert]]

/-- C10: the blob's object hash covers the path field of its content
record, so (with the digest treated as an ideal, injective function)
two byte-identical files at different absolute paths get different
blob hashes — the hash inputs provably differ in the path position. -/
theorem c10_blob_hash_covers_path (digest : String → String)
    (hinj : Function.Injective digest) (p1 p2 content : String) (hne : p1 ≠ p2) :
    compute_hash digest (blobContent digest p1 content) ≠
      compute_hash digest (blobContent digest p2 content) := by
  intro heq
  unfold compute_hash at heq
  have hs : jsonDumpsSorted (blobContent digest p1 content) =
      jsonDumpsSorted (blobContent digest p2 content) := hinj heq
  unfold jsonDumpsSorted at hs
  have hd : ((blobContent digest p1 content).sortKeys).dump =
      ((blobContent digest p2 content).sortKeys).dump := congrArg String.data hs
  have hv : (blobContent digest p1 content).sortKeys =
      (blobContent digest p2 content).sortKeys := by
    have := @jsonDumps_injective ((blobContent digest p1 content).sortKeys)
      ((blobContent digest p2 content).sortKeys)
    apply this
    unfold jsonDumps
    exact congrArg String.mk hd
  rw [sortKeys_blobContent, sortKeys_blobContent] at hv
  simp only [Jval.obj.injEq, Jobj.cons.injEq, Jval.str.injEq, true_and, and_true] at hv
  exact hne hv

/-
Layer B: repo.py's Repository as a state machine.  On-disk state is
modelled structurally: the object store keyed by full hash holds the
parsed JSON content (justified by the Layer A round trip `read_object
(put c) = some c`); branch ref files are either plain text or a JSON
record, matching the two formats the code writes and the
try-json/except-plain reads; HEAD is the branch name it designates; the
index file is its staged list; the working directory maps relative
paths to file text.  External inputs that the code takes from the
environment (SHA digests, timestamps, glob expansion) are explicit
parameters.
-/

/-- A `refs/heads/<name>` file: plain text (initialize writes "", commit
writes the bare hash) or the JSON record `create_branch` writes. -/
inductive BranchFile where
  | bare : String → BranchFile
  | record : Jobj → BranchFile
deriving DecidableEq

structure RepoState where
  head : String
  branches : List (String × BranchFile)
  objects : List (String × Jval)
  index : List String
  workdir : List (String × String)
  workRoot : String
deriving DecidableEq

/-- Overwrite-or-create a keyed file: replace the first binding of `key`
or append a new one. -/
def setKey {α : Type} (key : String) (val : α) : List (String × α) → List (String × α)
  | [] => [(key, val)]
  | (k, v) :: rest => if k = key then (key, val) :: rest else (k, v) :: setKey key val rest

/-- Python `str.strip()` (ASCII whitespace suffices for the program's
own writes). -/
def isPySpace (c : Char) : Bool :=
  c == ' ' || c == '\t' || c == '\n' || c == '\r' || c.toNat == 11 || c.toNat == 12

def pyStrip (s : String) : String :=
  ⟨((s.data.dropWhile isPySpace).reverse.dropWhile isPySpace).reverse⟩

/-- Python's substring test `sub in s`. -/
def listSubAt : List Char → List Char → Bool
  | [], _ => true
  | _ :: _, [] => false
  | a :: as, b :: bs => a == b && listSubAt as bs

def listContainsSub (sub : List Char) : List Char → Bool
  | [] => sub.isEmpty
  | c :: rest => listSubAt sub (c :: rest) || listContainsSub sub rest

def strContains (s sub : String) : Bool := listContainsSub sub.data s.data

/-- Sorted insertion of a string (Python `sorted` on the staged set). -/
def insertSorted (x : String) : List String → List String
  | [] => [x]
  | y :: ys => if keyLe x y then x :: y :: ys else y :: insertSorted x ys

def sortStrings : List String → List String
  | [] => []
  | x :: xs => insertSorted x (sortStrings xs)

/-- Field access `v.get(k)` when `v` is a dict; anything else has no
`.get` (the code's exception paths). -/
def getField (v : Jval) (k : String) : Option Jval :=
  match v with
  | .obj fs => fs.get k
  | _ => none

/-- Python dict assignment `d[k] = v`: replace in place or append. -/
def Jobj.set : Jobj → String → Jval → Jobj
  | .nil, k, v => .cons k v .nil
  | .cons k2 v2 r, k, v =>
    if k2 = k then .cons k2 v r else .cons k2 v2 (Jobj.set r k v)

/-- The commit pointer a branch file holds, as get_current_commit
(repo.py lines 122-128) reads it: JSON record → `get("commit","")`,
plain text → the stripped text. -/
def readBranchCommit : BranchFile → String
  | .bare t => pyStrip t
  | .record fs =>
    match fs.get "commit" with
    | some (.str s) => pyStrip s
    | _ => ""

/-- get_current_commit (repo.py lines 102-130). -/
def get_current_commit (st : RepoState) (branch : String) : Option String :=
  if branch = "" then none
  else
    match List.lookup branch st.branches with
    | none => none
    | some bf =>
      let c := readBranchCommit bf
      if c = "" then none else some c

/-- Repository.initialize (repo.py lines 46-86) on a not-yet-initialized
directory: default branch with empty pointer, HEAD at it, empty index. -/
def init_repo (workRoot : String) (wd : List (String × String)) : RepoState :=
  { head := "master", branches := [("master", .bare "")], objects := [],
    index := [], workdir := wd, workRoot := workRoot }

/-- Path join `self.work_dir / file_path` as a string (commit builds
blobs from the absolute path). -/
def pyJoin (root rel : String) : String := root ++ "/" ++ rel

/-- The tree content record (objects.py lines 63-71). -/
def mkTreeContent (entries : List Jval) : Jval :=
  .obj (.cons "type" (.str "tree") (.cons "entries" (.arr (Jarr.ofList entries)) .nil))

/-- One tree entry as commit builds it (repo.py lines 222-225). -/
def mkEntry (path blobHash : String) : Jval :=
  .obj (.cons "path" (.str path) (.cons "blob_hash" (.str blobHash) .nil))

/-- The commit content record (objects.py lines 74-85); `parent` null
for a root commit, `timestamp` supplied by the environment
(datetime.now().isoformat()). -/
def mkCommitContent (treeHash : String) (parent : Option String)
    (message timestamp : String) : Jval :=
  .obj (.cons "type" (.str "commit") (.cons "tree" (.str treeHash)
    (.cons "parent" (match parent with | some p => .str p | none => .null)
    (.cons "message" (.str message) (.cons "timestamp" (.str timestamp) .nil)))))

structure CommitResult where
  success : Bool
  message : String
  commit_hash : String
deriving DecidableEq

/-- Repository.commit (repo.py lines 197-253).  `digest` is SHA-1
hexdigest, `ts` the commit timestamp.  Only staged paths whose file
still exists become blobs; the tree is built in staged order; the
parent is the current branch tip; the branch ref is overwritten with
the bare commit hash (write_text(commit_hash), line 241); the index is
cleared. -/
def commitOp (digest : String → String) (ts : String) (st : RepoState)
    (message : String) : CommitResult × RepoState :=
  let staged := st.index
  if staged = [] then
    ({ success := false, message := "No files staged for commit", commit_hash := "" }, st)
  else
    let step := fun (acc : List (String × Jval) × List Jval) (file_path : String) =>
      match List.lookup file_path st.workdir with
      | some content =>
        let bc := blobContent digest (pyJoin st.workRoot file_path) content
        let bh := compute_hash digest bc
        (setKey bh bc acc.1, acc.2 ++ [mkEntry file_path bh])
      | none => acc
    let res := staged.foldl step (st.objects, [])
    let treeC := mkTreeContent res.2
    let treeH := compute_hash digest treeC
    let objs2 := setKey treeH treeC res.1
    let parent := get_current_commit st st.head
    let commitC := mkCommitContent treeH parent message ts
    let commitH := compute_hash digest commitC
    let objs3 := setKey commitH commitC objs2
    let branches2 := setKey st.head (BranchFile.bare commitH) st.branches
    ({ success := true, message := "Created commit " ++ pyTake 8 commitH,
       commit_hash := commitH },
     { st with objects := objs3, branches := branches2, index := [] })

/-- constants.py MASTER_PASSWORD: the hard-coded administrative
override credential. -/
def MASTER_PASSWORD : String := "Kingnstar@1604"

/-- security.py hash_password: SHA-256 hexdigest, kept as the explicit
`digest256` parameter. -/
def hash_password (digest256 : String → String) (password : String) : String :=
  digest256 password

/-- security.py verify_password. -/
def verify_password (digest256 : String → String) (password stored : String) : Bool :=
  hash_password digest256 password == stored

/-- security.py is_master_password. -/
def is_master_password (password : String) : Bool := password == MASTER_PASSWORD

structure SwitchResult where
  success : Bool
  message : String
deriving DecidableEq

/-- The stored password hash a branch file carries, with Python
truthiness (absent record, missing field, null or "" count as no
password), as switch_branch reads it (repo.py lines 342-348). -/
def storedPasswordHash : BranchFile → Option String
  | .bare _ => none
  | .record fs =>
    match fs.get "password_hash" with
    | some (.str s) => if s = "" then none else some s
    | _ => none

/-- Repository.switch_branch (repo.py lines 322-370). -/
def switch_branch (digest256 : String → String) (st : RepoState)
    (branch_name password : String) : SwitchResult × RepoState :=
  match List.lookup branch_name st.branches with
  | none =>
    ({ success := false, message := "Branch '" ++ branch_name ++ "' does not exist" }, st)
  | some bf =>
    match storedPasswordHash bf with
    | some ph =>
      if ¬is_master_password password ∧ ¬verify_password digest256 password ph then
        ({ success := false, message := "Invalid password for branch" }, st)
      else
        ({ success := true, message := "Switched to branch '" ++ branch_name ++ "'" },
         { st with head := branch_name, index := [] })
    | none =>
      ({ success := true, message := "Switched to branch '" ++ branch_name ++ "'" },
       { st with head := branch_name, index := [] })

/-- Short-or-full hash resolution as checkout_commit (repo.py lines
500-518) and show_commit (lines 662-676) both inline it: only inputs of
length at least 8 are considered; an exact object is preferred, else
the shard directory `objects/<id[:2]>` is scanned for the first
filename starting with `id[2:]` (scan order modelled by store order). -/
def resolveRef (objects : List (String × Jval)) (commit_id : String) : Option String :=
  if 8 ≤ commit_id.length then
    match List.lookup commit_id objects with
    | some _ => some commit_id
    | none =>
      let pfx := pyTake 2 commit_id
      let pat := pyDrop 2 commit_id
      match (objects.map Prod.fst).find?
          (fun h => pyTake 2 h == pfx && pat.data.isPrefixOf (pyDrop 2 h).data) with
      | some h => some (pfx ++ pyDrop 2 h)
      | none => none
  else none

/-- `entry["path"]` — a failure models the KeyError/TypeError the code
would raise on a malformed entry. -/
def entryPath (e : Jval) : Option String :=
  match getField e "path" with
  | some (.str p) => some p
  | _ => none

/-- `entry.get("blob_hash") or entry.get("blob")` with Python
truthiness; `none` models the later slicing of `None` raising. -/
def entryBlobHash (e : Jval) : Option String :=
  match getField e "blob_hash" with
  | some (.str s) =>
    if s = "" then
      match getField e "blob" with
      | some (.str t) => if t = "" then none else some t
      | _ => none
    else some s
  | _ =>
    match getField e "blob" with
    | some (.str t) => if t = "" then none else some t
    | _ => none

/-- `tree_obj.get("entries", [])` (a non-list value would make the later
iteration raise; modelled as `none`). -/
def entriesOf (treeObj : Jval) : Option (List Jval) :=
  match treeObj with
  | .obj fs =>
    match fs.get "entries" with
    | some (.arr l) => some l.toList
    | none => some []
    | some _ => none
  | _ => none

/-- checkout's first pass (repo.py lines 547-552): unlink every entry
path that exists, collecting them; a `false` flag models an exception
escaping mid-loop with the mutations so far kept. -/
def checkoutDeletePass : List Jval → List (String × String) →
    Bool × List (String × String) × List String
  | [], w => (true, w, [])
  | e :: rest, w =>
    match entryPath e with
    | none => (false, w, [])
    | some p =>
      if (List.lookup p w).isSome then
        let r := checkoutDeletePass rest (w.filter (fun q => q.1 != p))
        (r.1, r.2.1, p :: r.2.2)
      else
        let r := checkoutDeletePass rest w
        (r.1, r.2.1, r.2.2)

/-- checkout's second pass (repo.py lines 555-563): write each entry's
blob content (skipping entries whose blob is unreadable). -/
def checkoutRestorePass : List Jval → List (String × Jval) → List (String × String) →
    Bool × List (String × String)
  | [], _, w => (true, w)
  | e :: rest, objs, w =>
    match entryPath e with
    | none => (false, w)
    | some p =>
      match entryBlobHash e with
      | none => (false, w)
      | some bh =>
        let w2 := match List.lookup bh objs with
          | some blobObj =>
            let content := match getField blobObj "content" with
              | some (.str c) => c
              | _ => ""
            setKey p content w
          | none => w
        checkoutRestorePass rest objs w2

/-- The branch-pointer update of checkout_commit (lines 569-576) and
pull_commit_confirm (lines 465-472): a JSON record keeps its other
fields and gets `commit` reassigned; otherwise the bare hash is
written. -/
def advanceBranch (branches : List (String × BranchFile)) (name h : String) :
    List (String × BranchFile) :=
  match List.lookup name branches with
  | some (.record fs) => setKey name (.record (fs.set "commit" (.str h))) branches
  | _ => setKey name (.bare h) branches

structure CheckoutResult where
  success : Bool
  message : String
  files_restored : List String
deriving DecidableEq

/-- Repository.checkout_commit (repo.py lines 486-588). -/
def checkout_commit (st : RepoState) (commit_id : String) : CheckoutResult × RepoState :=
  match resolveRef st.objects commit_id with
  | none =>
    ({ success := false, message := "Commit '" ++ commit_id ++ "' not found",
       files_restored := [] }, st)
  | some full_hash =>
    match List.lookup full_hash st.objects with
    | none =>
      ({ success := false, message := "Commit '" ++ commit_id ++ "' not found",
         files_restored := [] }, st)
    | some cobj =>
      match getField cobj "tree" with
      | some (.str th) =>
        (match List.lookup th st.objects with
         | none =>
           ({ success := false, message := "Tree object not found for commit",
              files_restored := [] }, st)
         | some tobj =>
           match entriesOf tobj with
           | none =>
             ({ success := false, message := "Error checking out commit",
                files_restored := [] }, st)
           | some entries =>
             match checkoutDeletePass entries st.workdir with
             | (true, w1, restored) =>
               (match checkoutRestorePass entries st.objects w1 with
                | (true, w2) =>
                  ({ success := true,
                     message := "Checked out to commit " ++ pyTake 8 full_hash,
                     files_restored := restored },
                   { st with workdir := w2,
                             branches := advanceBranch st.branches st.head full_hash,
                             index := [] })
                | (false, w2) =>
                  ({ success := false, message := "Error checking out commit",
                     files_restored := [] }, { st with workdir := w2 }))
             | (false, w1, _) =>
               ({ success := false, message := "Error checking out commit",
                  files_restored := [] }, { st with workdir := w1 }))
      | _ =>
        ({ success := false, message := "Error checking out commit",
           files_restored := [] }, st)

structure PullResult where
  success : Bool
  message : String
  conflicts : List String
  requires_confirmation : Bool
  new_commit : String
  files_updated : List String
deriving DecidableEq

/-- The conflict scan of pull_commit (repo.py lines 404-409): every
entry path that already exists as a regular file; `none` models a
malformed entry raising. -/
def conflictsOf : List Jval → List (String × String) → Option (List String)
  | [], _ => some []
  | e :: rest, w =>
    match entryPath e with
    | none => none
    | some p =>
      match conflictsOf rest w with
      | none => none
      | some cs => some ((if (List.lookup p w).isSome then [p] else []) ++ cs)

/-- The restore loop of pull_commit_confirm (repo.py lines 442-451): it
reads each entry's blob and creates parent directories but — per the
TODO on line 450 — never writes any file content; it only collects the
entry paths as `updated_files`. -/
def pullUpdatedFiles : List Jval → Option (List String)
  | [] => some []
  | e :: rest =>
    match getField e "blob_hash" with
    | some (.str _) =>
      match entryPath e with
      | none => none
      | some p => (pullUpdatedFiles rest).map (p :: ·)
    | _ => none

/-- Repository.pull_commit_confirm (repo.py lines 425-482): records the
pulled paths, creates a new commit whose tree is the pulled tree and
whose parent is the current tip, and advances the branch (preserving a
record's password hash).  The working directory is never written. -/
def pull_commit_confirm (digest : String → String) (ts : String) (st : RepoState)
    (commit_id : String) : PullResult × RepoState :=
  let exc : PullResult × RepoState :=
    ({ success := false, message := "Error confirming pull", conflicts := [],
       requires_confirmation := false, new_commit := "", files_updated := [] }, st)
  match List.lookup commit_id st.objects with
  | none => exc
  | some cobj =>
    match getField cobj "tree" with
    | some (.str th) =>
      (match List.lookup th st.objects with
       | none => exc
       | some tobj =>
         match entriesOf tobj with
         | none => exc
         | some entries =>
           match pullUpdatedFiles entries with
           | none => exc
           | some updated =>
             let parent := get_current_commit st st.head
             let commitC := mkCommitContent th parent
               ("Pull commit " ++ pyTake 8 commit_id) ts
             let newH := compute_hash digest commitC
             ({ success := true, message := "Pulled commit " ++ pyTake 8 commit_id,
                conflicts := [], requires_confirmation := false,
                new_commit := pyTake 8 newH, files_updated := updated },
              { st with objects := setKey newH commitC st.objects,
                        branches := advanceBranch st.branches st.head newH }))
    | _ => exc

/-- Repository.pull_commit (repo.py lines 374-423): resolve the commit
(exact hash only), collect conflicts, and either report
`requires_confirmation` with no mutation or proceed to
pull_commit_confirm. -/
def pull_commit (digest : String → String) (ts : String) (st : RepoState)
    (_source_branch commit_id : String) : PullResult × RepoState :=
  let exc : PullResult × RepoState :=
    ({ success := false, message := "Error pulling commit", conflicts := [],
       requires_confirmation := false, new_commit := "", files_updated := [] }, st)
  match List.lookup commit_id st.objects with
  | none =>
    ({ success := false, message := "Commit '" ++ pyTake 8 commit_id ++ "' not found",
       conflicts := [], requires_confirmation := false, new_commit := "",
       files_updated := [] }, st)
  | some cobj =>
    match getField cobj "tree" with
    | some (.str th) =>
      (match List.lookup th st.objects with
       | none =>
         ({ success := false, message := "Tree object not found", conflicts := [],
            requires_confirmation := false, new_commit := "", files_updated := [] }, st)
       | some tobj =>
         match entriesOf tobj with
         | none => exc
         | some entries =>
           match conflictsOf entries st.workdir with
           | none => exc
           | some conflicts =>
             if conflicts ≠ [] then
               ({ success := false, message := "File conflicts detected",
                  conflicts := conflicts, requires_confirmation := true,
                  new_commit := "", files_updated := [] }, st)
             else pull_commit_confirm digest ts st commit_id)
    | _ => exc

structure HistEntry where
  hash : String
  full_hash : String
  message : String
  timestamp : String
  parent : Option String
deriving DecidableEq

/-- `commit_obj.get(k, "")` for the string fields of a history entry. -/
def strFieldD (cobj : Jval) (k : String) : String :=
  match getField cobj k with
  | some (.str s) => s
  | _ => ""

/-- The raw parent pointer, with Python truthiness ("" for null or
missing, ending the walk). -/
def parentStrOf (cobj : Jval) : String := strFieldD cobj "parent"

/-- One entry of the log payload (repo.py lines 631-637). -/
def mkHistEntry (cid : String) (cobj : Jval) : HistEntry :=
  { hash := pyTake 8 cid, full_hash := cid,
    message := strFieldD cobj "message", timestamp := strFieldD cobj "timestamp",
    parent := if parentStrOf cobj = "" then none else some (pyTake 8 (parentStrOf cobj)) }

theorem lookup_some_mem_fst {α : Type} (a : String) (l : List (String × α)) (b : α)
    (h : List.lookup a l = some b) : a ∈ l.map Prod.fst := by
  induction l with
  | nil => simp [List.lookup] at h
  | cons p rest ih =>
    rw [List.lookup] at h
    by_cases hpa : a == p.1
    · have : a = p.1 := by simpa using hpa
      simp [this]
    · have hf : (a == p.1) = false := by simpa using hpa
      simp only [hf] at h
      simp only [List.map_cons, List.mem_cons]
      exact Or.inr (ih h)

theorem length_filter_mono (l : List String) (p q : String → Bool)
    (h : ∀ x, p x = true → q x = true) :
    (l.filter p).length ≤ (l.filter q).length := by
  induction l with
  | nil => simp
  | cons b l' ih =>
    by_cases hb : p b
    · rw [List.filter_cons_of_pos hb, List.filter_cons_of_pos (h b hb)]
      simpa using ih
    · rw [List.filter_cons_of_neg (by simpa using hb)]
      by_cases hbq : q b
      · rw [List.filter_cons_of_pos hbq]
        simp only [List.length_cons]
        omega
      · rw [List.filter_cons_of_neg (by simpa using hbq)]
        exact ih

theorem length_filter_visited_lt (l : List String) (a : String) (visited : List String)
    (ha : a ∈ l) (hav : ¬a ∈ visited) :
    (l.filter fun k => !((a :: visited).contains k)).length <
      (l.filter fun k => !(visited.contains k)).length := by
  induction l with
  | nil => cases ha
  | cons b l' ih =>
    have hmono := length_filter_mono l' (fun k => !((a :: visited).contains k))
      (fun k => !(visited.contains k))
      (by
        intro x hx
        simp only [Bool.not_eq_true'] at hx ⊢
        simp only [List.contains_cons, Bool.or_eq_false_iff] at hx
        exact hx.2)
    simp only [List.filter_cons]
    by_cases hb : b = a
    · subst hb
      have h1 : ((b :: visited).contains b) = true := by simp
      have h2 : (visited.contains b) = false := by simpa using hav
      simp only [h1, h2, Bool.not_true, Bool.not_false]
      simp only [Bool.false_eq_true, if_false, if_true, List.length_cons]
      omega
    · have hcb : ((a :: visited).contains b) = (visited.contains b) := by
        simp [List.contains_cons, hb]
      rcases List.mem_cons.mp ha with h | h
      · exact absurd h.symm hb
      · simp only [hcb]
        by_cases hbv : visited.contains b
        · simp only [hbv, Bool.not_true, Bool.false_eq_true, if_false]
          exact ih h
        · simp only [Bool.not_eq_true] at hbv
          simp only [hbv, Bool.not_false, if_true, List.length_cons]
          exact Nat.succ_lt_succ (ih h)

/-- The history walk of get_commit_history (repo.py lines 620-639):
follow parent links from a tip, stopping on a falsy pointer, an
unreadable object, or a hash already visited (the cycle guard).
Termination: each continuing step reads a stored object whose hash it
adds to `visited`, so the stored-but-unvisited set shrinks. -/
def walkHistory (objects : List (String × Jval)) (commit_id : String)
    (visited : List String) : List HistEntry :=
  if h : ¬(commit_id = "" ∨ visited.contains commit_id) then
    match hl : List.lookup commit_id objects with
    | none => []
    | some cobj =>
      mkHistEntry commit_id cobj ::
        walkHistory objects (parentStrOf cobj) (commit_id :: visited)
  else []
termination_by ((objects.map Prod.fst).filter fun k => !(visited.contains k)).length
decreasing_by
  exact length_filter_visited_lt _ _ _ (lookup_some_mem_fst _ _ _ hl)
    (by
      intro hmem
      exact h (Or.inr (List.elem_eq_true_of_mem hmem)))

structure HistoryResult where
  success : Bool
  message : String
  commits : List HistEntry
deriving DecidableEq

/-- Repository.get_commit_history (repo.py lines 592-644) for an
explicit branch name. -/
def get_commit_history (st : RepoState) (branch_name : String) : HistoryResult :=
  match List.lookup branch_name st.branches with
  | none =>
    { success := false, message := "Branch '" ++ branch_name ++ "' not found",
      commits := [] }
  | some bf =>
    let commit_id :=
      match bf with
      | .record fs =>
        (match fs.get "commit" with
         | some (.str s) => s
         | _ => "")
      | .bare t => pyStrip t
    { success := true, message := "", commits := walkHistory st.objects commit_id [] }

structure AddResult where
  success : Bool
  message : String
  files : List String
deriving DecidableEq

/-- Per-file processing of add_files (repo.py lines 163-172): skip
paths inside the metadata directory, then for each regular file compute
the path relative to the working root and add it to the staged set
(`none` models `relative_to` raising ValueError, which escapes to the
outer handler).  `isFileFs` and `relTo` stand for the filesystem
queries. -/
def processFiles (isFileFs : String → Bool) (relTo : String → Option String) :
    List String → List String → List String → Option (List String × List String)
  | [], staged, added => some (staged, added)
  | fp :: rest, staged, added =>
    if strContains fp ".kingnstar" then processFiles isFileFs relTo rest staged added
    else if isFileFs fp then
      match relTo fp with
      | none => none
      | some rel =>
        processFiles isFileFs relTo rest
          (if rel ∈ staged then staged else rel :: staged) (added ++ [rel])
    else processFiles isFileFs relTo rest staged added

inductive AddOutcome where
  | noMatch : String → AddOutcome
  | exc : AddOutcome
  | ok : List String → List String → AddOutcome

/-- The pattern loop of add_files (repo.py lines 153-172): the first
pattern whose glob expansion is empty aborts the whole call before the
index is saved. -/
def addLoop (globFn : String → List String) (isFileFs : String → Bool)
    (relTo : String → Option String) :
    List String → List String → List String → AddOutcome
  | [], staged, added => .ok staged added
  | pat :: rest, staged, added =>
    let matched := globFn pat
    if matched = [] then .noMatch pat
    else
      match processFiles isFileFs relTo matched staged added with
      | none => .exc
      | some (staged2, added2) => addLoop globFn isFileFs relTo rest staged2 added2

/-- Repository.add_files (repo.py lines 134-185).  `globFn` models
`glob.glob(pattern, recursive=True)`.  The index file is rewritten (with
the sorted staged set, line 175-176) only after every pattern
succeeded; the early `NoMatch` return and the exception path leave it
untouched. -/
def add_files (globFn : String → List String) (isFileFs : String → Bool)
    (relTo : String → Option String) (st : RepoState) (patterns : List String) :
    AddResult × RepoState :=
  match addLoop globFn isFileFs relTo patterns st.index [] with
  | .noMatch pat =>
    ({ success := false, message := "No files matched pattern: " ++ pat, files := [] }, st)
  | .exc =>
    ({ success := false, message := "Error staging files", files := [] }, st)
  | .ok staged added =>
    ({ success := true, message := "Staged " ++ toString added.length ++ " file(s)",
       files := added },
     { st with index := sortStrings staged })

structure ShowResult where
  success : Bool
  message : String
  commit : String
  commit_message : String
  timestamp : String
  parent : String
  files : List String
  file_count : Nat
deriving DecidableEq

/-- The file list show_commit collects (repo.py lines 689-692):
`entry.get("path")` per entry ("" standing for a missing field's None). -/
def showFilesOf : List Jval → Option (List String)
  | [] => some []
  | e :: rest =>
    match e with
    | .obj fs =>
      (showFilesOf rest).map
        (fun l => (match fs.get "path" with | some (.str p) => p | _ => "") :: l)
    | _ => none

/-- Repository.show_commit (repo.py lines 648-705); hash resolution is
the same inline scan as checkout_commit's. -/
def show_commit (st : RepoState) (commit_id : String) : ShowResult :=
  let excRes : ShowResult :=
    { success := false, message := "Error showing commit", commit := "",
      commit_message := "", timestamp := "", parent := "", files := [],
      file_count := 0 }
  match resolveRef st.objects commit_id with
  | none =>
    { success := false, message := "Commit '" ++ commit_id ++ "' not found",
      commit := "", commit_message := "", timestamp := "", parent := "",
      files := [], file_count := 0 }
  | some full_hash =>
    match List.lookup full_hash st.objects with
    | none =>
      { success := false, message := "Commit '" ++ commit_id ++ "' not found",
        commit := "", commit_message := "", timestamp := "", parent := "",
        files := [], file_count := 0 }
    | some cobj =>
      match getField cobj "tree" with
      | some (.str th) =>
        (match List.lookup th st.objects with
         | none =>
           { success := true, message := "", commit := pyTake 8 full_hash,
             commit_message := strFieldD cobj "message",
             timestamp := strFieldD cobj "timestamp",
             parent := if parentStrOf cobj = "" then "None"
               else pyTake 8 (parentStrOf cobj),
             files := [], file_count := 0 }
         | some tobj =>
           match entriesOf tobj with
           | none => excRes
           | some entries =>
             match showFilesOf entries with
             | none => excRes
             | some files =>
               { success := true, message := "", commit := pyTake 8 full_hash,
                 commit_message := strFieldD cobj "message",
                 timestamp := strFieldD cobj "timestamp",
                 parent := if parentStrOf cobj = "" then "None"
                   else pyTake 8 (parentStrOf cobj),
                 files := files, file_count := files.length })
      | _ => excRes

theorem lookup_setKey_self {α : Type} (key : String) (v : α) (l : List (String × α)) :
    List.lookup key (setKey key v l) = some v := by
  induction l with
  | nil => simp [setKey, List.lookup]
  | cons p rest ih =>
    rw [setKey]
    by_cases hp : p.1 = key
    · rw [if_pos hp, List.lookup]
      simp
    · rw [if_neg hp, List.lookup]
      have : (key == p.1) = false := by simp [Ne.symm hp]
      simp only [this]
      exact ih

theorem Jobj.get_set_ne : ∀ (fs : Jobj) (k1 k2 : String) (v : Jval), k1 ≠ k2 →
    (fs.set k1 v).get k2 = fs.get k2
  | .nil, k1, k2, v, hne => by simp [Jobj.set, Jobj.get, hne]
  | .cons k3 v3 r, k1, k2, v, hne => by
    rw [Jobj.set]
    by_cases h3 : k3 = k1
    · rw [if_pos h3, Jobj.get, Jobj.get]
      subst h3
      rw [if_neg hne, if_neg hne]
    · rw [if_neg h3, Jobj.get, Jobj.get]
      by_cases h32 : k3 = k2
      · rw [if_pos h32, if_pos h32]
      · rw [if_neg h32, if_neg h32]
        exact Jobj.get_set_ne r k1 k2 v hne

theorem mem_fst_lookup_isSome {α : Type} (a : String) (l : List (String × α))
    (h : a ∈ l.map Prod.fst) : (List.lookup a l).isSome := by
  induction l with
  | nil => simp at h
  | cons p rest ih =>
    rw [List.lookup]
    by_cases hpa : a == p.1
    · simp [hpa]
    · have hf : (a == p.1) = false := by simpa using hpa
      simp only [hf]
      apply ih
      simp only [List.map_cons, List.mem_cons] at h
      rcases h with h | h
      · exact absurd (by simp [h]) hpa
      · exact h

/-- C5: the staging index is empty after initialize and after every
successful commit, checkout_commit, and switch_branch, regardless of
its prior contents. -/
theorem c5_index_cleared :
    (∀ root wd, (init_repo root wd).index = []) ∧
    (∀ digest ts st m, (commitOp digest ts st m).1.success = true →
      (commitOp digest ts st m).2.index = []) ∧
    (∀ st cid, (checkout_commit st cid).1.success = true →
      (checkout_commit st cid).2.index = []) ∧
    (∀ d256 st b pw, (switch_branch d256 st b pw).1.success = true →
      (switch_branch d256 st b pw).2.index = []) := by
  refine ⟨fun root wd => rfl, ?_, ?_, ?_⟩
  · intro digest ts st m h
    by_cases hs : st.index = []
    · simp [commitOp, hs] at h
    · simp [commitOp, hs]
  · intro st cid h
    obtain ⟨r, st', heq⟩ : ∃ r st', checkout_commit st cid = (r, st') := ⟨_, _, rfl⟩
    rw [heq] at h ⊢
    unfold checkout_commit at heq
    repeat' split at heq
    all_goals (cases heq; simp_all)
  · intro d st b pw h
    obtain ⟨r, st', heq⟩ : ∃ r st', switch_branch d st b pw = (r, st') := ⟨_, _, rfl⟩
    rw [heq] at h ⊢
    unfold switch_branch at heq
    repeat' split at heq
    all_goals (cases heq; simp_all)

/-- C4: switching to a password-protected branch succeeds exactly when
the supplied password hashes to the stored hash or equals the
hard-coded master credential; on success HEAD moves and the index
clears, otherwise InvalidPassword is reported and the state (HEAD,
index, branch records) is unchanged. -/
theorem c4_switch_password_gate (digest256 : String → String) (st : RepoState)
    (name pw : String) (fs : Jobj) (ph : String)
    (hb : List.lookup name st.branches = some (.record fs))
    (hph : fs.get "password_hash" = some (.str ph)) (hne : ph ≠ "") :
    ((switch_branch digest256 st name pw).1.success = true ↔
      (pw = MASTER_PASSWORD ∨ digest256 pw = ph)) ∧
    ((switch_branch digest256 st name pw).1.success = true →
      (switch_branch digest256 st name pw).2 =
        { st with head := name, index := [] }) ∧
    ((switch_branch digest256 st name pw).1.success = false →
      (switch_branch digest256 st name pw).1.message = "Invalid password for branch" ∧
      (switch_branch digest256 st name pw).2 = st) := by
  have hsp : storedPasswordHash (.record fs) = some ph := by
    rw [storedPasswordHash, hph]
    simp [hne]
  unfold switch_branch
  simp only [hb, hsp]
  by_cases hc : ¬is_master_password pw ∧ ¬verify_password digest256 pw ph
  · rw [if_pos hc]
    refine ⟨?_, by simp, by simp⟩
    simp only [Bool.false_eq_true, false_iff]
    intro hor
    rcases hor with hm | hv
    · exact hc.1 (by simp [is_master_password, hm])
    · exact hc.2 (by simp [verify_password, hash_password, hv])
  · rw [if_neg hc]
    refine ⟨?_, by simp, by simp⟩
    simp only [true_iff]
    rcases Decidable.not_and_iff_or_not.mp hc with hm | hv
    · left
      have : is_master_password pw = true := by simpa using hm
      simpa [is_master_password] using this
    · right
      have : verify_password digest256 pw ph = true := by simpa using hv
      simpa [verify_password, hash_password] using this

/-- C4 witness. -/
theorem c4_switch_password_gate_witness :
    ((switch_branch id
        { head := "master", branches := [("master", .bare ""),
          ("dev", .record (Jobj.ofList [("commit", .str ""), ("password_hash", .str "pw1")]))],
          objects := [], index := ["a.txt"], workdir := [], workRoot := "/w" }
        "dev" "pw1").1.success = true ↔ ("pw1" = MASTER_PASSWORD ∨ id "pw1" = "pw1")) ∧ True := by
  constructor
  · exact (c4_switch_password_gate id
      { head := "master", branches := [("master", .bare ""),
        ("dev", .record (Jobj.ofList [("commit", .str ""), ("password_hash", .str "pw1")]))],
        objects := [], index := ["a.txt"], workdir := [], workRoot := "/w" }
      "dev" "pw1" (Jobj.ofList [("commit", .str ""), ("password_hash", .str "pw1")]) "pw1"
      (by decide) (by decide) (by decide)).1
  · trivial

theorem conflictsOf_spec (entries : List Jval) (w : List (String × String))
    (cs : List String) (h : conflictsOf entries w = some cs) :
    ∀ p, p ∈ cs ↔ ∃ e ∈ entries, entryPath e = some p ∧ (List.lookup p w).isSome := by
  induction entries generalizing cs with
  | nil =>
    rw [conflictsOf] at h
    injection h with h
    subst h
    intro p
    simp
  | cons e rest ih =>
    rw [conflictsOf] at h
    match hp : entryPath e with
    | none => rw [hp] at h; exact absurd h (by simp)
    | some q =>
      rw [hp] at h
      match hc : conflictsOf rest w with
      | none => rw [hc] at h; exact absurd h (by simp)
      | some cs' =>
        rw [hc] at h
        injection h with h
        subst h
        intro p
        rw [List.mem_append]
        constructor
        · intro hmem
          rcases hmem with hmem | hmem
          · by_cases hq : (List.lookup q w).isSome
            · rw [if_pos hq] at hmem
              simp only [List.mem_singleton] at hmem
              subst hmem
              exact ⟨e, by simp, hp, hq⟩
            · rw [if_neg hq] at hmem
              simp at hmem
          · obtain ⟨e2, he2, hpath, hsome⟩ := (ih cs' hc p).mp hmem
            exact ⟨e2, by simp [he2], hpath, hsome⟩
        · rintro ⟨e2, he2, hpath, hsome⟩
          rcases List.mem_cons.mp he2 with he2 | he2
          · subst he2
            rw [hp] at hpath
            injection hpath with hpath
            subst hpath
            left
            rw [if_pos hsome]
            simp
          · right
            exact (ih cs' hc p).mpr ⟨e2, he2, hpath, hsome⟩

/-- C7: when any entry of the pulled commit's tree names a path that
already exists as a working-directory file, pull_commit reports failure
with requires_confirmation and the full conflict list, and mutates
nothing. -/
theorem c7_pull_conflicts_no_mutation (digest : String → String) (ts : String)
    (st : RepoState) (src cid : String) (cobj : Jval) (th : String) (tobj : Jval)
    (entries : List Jval) (conflicts : List String)
    (hc : List.lookup cid st.objects = some cobj)
    (ht : getField cobj "tree" = some (.str th))
    (hto : List.lookup th st.objects = some tobj)
    (he : entriesOf tobj = some entries)
    (hcf : conflictsOf entries st.workdir = some conflicts)
    (hne : conflicts ≠ []) :
    (pull_commit digest ts st src cid).1.success = false ∧
    (pull_commit digest ts st src cid).1.requires_confirmation = true ∧
    (pull_commit digest ts st src cid).1.conflicts = conflicts ∧
    (∀ p, p ∈ conflicts ↔
      ∃ e ∈ entries, entryPath e = some p ∧ (List.lookup p st.workdir).isSome) ∧
    (pull_commit digest ts st src cid).2 = st := by
  unfold pull_commit
  simp only [hc, ht, hto, he, hcf]
  rw [if_pos hne]
  exact ⟨rfl, rfl, rfl, conflictsOf_spec entries st.workdir conflicts hcf, rfl⟩

/-- A concrete repository whose stored commit tree names a path that
already exists in the working directory. -/
def c7State : RepoState :=
  { head := "master", branches := [("master", .bare "")],
    objects := [("cccccccc01", mkCommitContent "tttttttt01" none "m" "T0"),
                ("tttttttt01", mkTreeContent [mkEntry "a.txt" "bbbbbbbb01"])],
    index := [], workdir := [("a.txt", "old")], workRoot := "/w" }

/-- C7 witness. -/
theorem c7_pull_conflicts_no_mutation_witness :
    (pull_commit id "T" c7State "feature" "cccccccc01").1.requires_confirmation = true ∧
    (pull_commit id "T" c7State "feature" "cccccccc01").2 = c7State := by
  have h := c7_pull_conflicts_no_mutation id "T" c7State "feature" "cccccccc01"
    (mkCommitContent "tttttttt01" none "m" "T0") "tttttttt01"
    (mkTreeContent [mkEntry "a.txt" "bbbbbbbb01"]) [mkEntry "a.txt" "bbbbbbbb01"]
    ["a.txt"] (by decide) (by decide) (by decide) (by decide) (by decide)
    (by decide)
  exact ⟨h.2.1, h.2.2.2.2⟩

theorem addLoop_empty_pattern_not_ok (globFn : String → List String)
    (isFileFs : String → Bool) (relTo : String → Option String) :
    ∀ (patterns : List String) (pat : String) (staged added : List String),
    pat ∈ patterns → globFn pat = [] →
    ∀ s a, addLoop globFn isFileFs relTo patterns staged added ≠ .ok s a := by
  intro patterns
  induction patterns with
  | nil => intro pat staged added hmem; cases hmem
  | cons p rest ih =>
    intro pat staged added hmem hglob s a
    rw [addLoop]
    by_cases hp : globFn p = []
    · rw [if_pos hp]
      simp
    · rw [if_neg hp]
      match hpf : processFiles isFileFs relTo (globFn p) staged added with
      | none => simp
      | some r =>
        simp only []
        rcases List.mem_cons.mp hmem with he | he
        · subst he
          exact absurd hglob hp
        · exact ih pat r.1 r.2 he hglob s a

/-- C9: if any pattern matches zero files, add_files fails and the
persisted staged set is exactly what it was before the call, even when
earlier patterns did match. -/
theorem c9_add_files_atomic_on_no_match (globFn : String → List String)
    (isFileFs : String → Bool) (relTo : String → Option String)
    (st : RepoState) (patterns : List String) (pat : String)
    (hmem : pat ∈ patterns) (hglob : globFn pat = []) :
    (add_files globFn isFileFs relTo st patterns).1.success = false ∧
    (add_files globFn isFileFs relTo st patterns).2 = st := by
  unfold add_files
  match hl : addLoop globFn isFileFs relTo patterns st.index [] with
  | .noMatch q => simp
  | .exc => simp
  | .ok s a =>
    exact absurd hl (addLoop_empty_pattern_not_ok globFn isFileFs relTo
      patterns pat st.index [] hmem hglob s a)

/-- C9 witness: the first pattern matches `a.txt`, the second matches
nothing; the staged set stays as it was. -/
theorem c9_add_files_atomic_on_no_match_witness :
    (add_files (fun p => if p = "*.txt" then ["a.txt"] else [])
      (fun _ => true) (fun fp => some fp)
      { head := "master", branches := [("master", .bare "")], objects := [],
        index := ["old.txt"], workdir := [("a.txt", "x")], workRoot := "/w" }
      ["*.txt", "*.md"]).2 =
      { head := "master", branches := [("master", .bare "")], objects := [],
        index := ["old.txt"], workdir := [("a.txt", "x")], workRoot := "/w" } := by
  exact (c9_add_files_atomic_on_no_match (fun p => if p = "*.txt" then ["a.txt"] else [])
    (fun _ => true) (fun fp => some fp)
    { head := "master", branches := [("master", .bare "")], objects := [],
      index := ["old.txt"], workdir := [("a.txt", "x")], workRoot := "/w" }
    ["*.txt", "*.md"] "*.md" (by decide) (by decide)).2

/-- A repository holding one commit whose tree has one entry `a.txt`
backed by a blob whose stored content is "hello"; the working directory
is empty (so a pull has no conflicts). -/
def c1State : RepoState :=
  { head := "master", branches := [("master", .bare "")],
    objects := [("cccccccc01", mkCommitContent "tttttttt01" none "m" "T0"),
                ("tttttttt01", mkTreeContent [mkEntry "a.txt" "bbbbbbbb01"]),
                ("bbbbbbbb01", blobContent id "/w/a.txt" "hello")],
    index := [], workdir := [], workRoot := "/w" }

/-- C1: pull_commit_confirm reports success and lists `a.txt` as
updated, yet writes nothing: the working directory is unchanged and
`a.txt` does not hold the blob's content (the restore body is the TODO
at repo.py line 450). -/
theorem c1_pull_confirm_restores_no_content :
    (pull_commit_confirm id "T1" c1State "cccccccc01").1.success = true ∧
    (pull_commit_confirm id "T1" c1State "cccccccc01").1.files_updated = ["a.txt"] ∧
    (pull_commit_confirm id "T1" c1State "cccccccc01").2.workdir = [] ∧
    List.lookup "a.txt" (pull_commit_confirm id "T1" c1State "cccccccc01").2.workdir ≠
      some "hello" := by
  refine ⟨rfl, rfl, rfl, by decide⟩

/-- A repository whose current branch `dev` is password-protected. -/
def c2State : RepoState :=
  { head := "dev",
    branches := [("dev", .record (Jobj.ofList
      [("commit", .str "h0"), ("password_hash", .str "PH")]))],
    objects := [], index := ["a.txt"], workdir := [("a.txt", "x")], workRoot := "/w" }

/-- C2 counterexample: commit succeeds on the protected branch but
rewrites its ref file as a bare hash (repo.py line 241), so the stored
password hash is gone — refuting the claim for the `commit`
operation. -/
theorem c2_commit_drops_password_hash :
    (commitOp id "T0" c2State "m").1.success = true ∧
    (List.lookup "dev" c2State.branches).map storedPasswordHash = some (some "PH") ∧
    (List.lookup "dev" (commitOp id "T0" c2State "m").2.branches).map
      storedPasswordHash = some none := ⟨rfl, rfl, rfl⟩

theorem checkout_success_branches (st : RepoState) (cid : String)
    (h : (checkout_commit st cid).1.success = true) :
    ∃ fh, (checkout_commit st cid).2.branches = advanceBranch st.branches st.head fh := by
  obtain ⟨r, st', heq⟩ : ∃ r st', checkout_commit st cid = (r, st') := ⟨_, _, rfl⟩
  rw [heq] at h ⊢
  unfold checkout_commit at heq
  repeat' split at heq
  all_goals (cases heq; simp_all)

theorem pull_confirm_success_branches (digest : String → String) (ts : String)
    (st : RepoState) (cid : String)
    (h : (pull_commit_confirm digest ts st cid).1.success = true) :
    ∃ fh, (pull_commit_confirm digest ts st cid).2.branches =
      advanceBranch st.branches st.head fh := by
  obtain ⟨r, st', heq⟩ : ∃ r st', pull_commit_confirm digest ts st cid = (r, st') :=
    ⟨_, _, rfl⟩
  rw [heq] at h ⊢
  unfold pull_commit_confirm at heq
  repeat' split at heq
  all_goals (cases heq; simp_all)

/-- C2 amended: checkout_commit and pull_commit_confirm advance a
password-protected branch by rewriting only the `commit` field of its
record, leaving the stored password hash unchanged; `commit`, however,
overwrites the ref file with the bare commit hash and discards the
password hash (see the counterexample). -/
theorem c2_amended_checkout_pull_preserve_password (st : RepoState) (cid : String)
    (digest : String → String) (ts : String) (fs : Jobj)
    (hb : List.lookup st.head st.branches = some (.record fs)) :
    ((checkout_commit st cid).1.success = true →
      ∃ h', List.lookup st.head (checkout_commit st cid).2.branches =
        some (.record (fs.set "commit" (.str h'))) ∧
        (fs.set "commit" (.str h')).get "password_hash" = fs.get "password_hash") ∧
    ((pull_commit_confirm digest ts st cid).1.success = true →
      ∃ h', List.lookup st.head (pull_commit_confirm digest ts st cid).2.branches =
        some (.record (fs.set "commit" (.str h'))) ∧
        (fs.set "commit" (.str h')).get "password_hash" = fs.get "password_hash") := by
  constructor
  · intro h
    obtain ⟨fh, hbr⟩ := checkout_success_branches st cid h
    refine ⟨fh, ?_, Jobj.get_set_ne fs "commit" "password_hash" (.str fh) (by decide)⟩
    rw [hbr]
    unfold advanceBranch
    rw [hb]
    exact lookup_setKey_self _ _ _
  · intro h
    obtain ⟨fh, hbr⟩ := pull_confirm_success_branches digest ts st cid h
    refine ⟨fh, ?_, Jobj.get_set_ne fs "commit" "password_hash" (.str fh) (by decide)⟩
    rw [hbr]
    unfold advanceBranch
    rw [hb]
    exact lookup_setKey_self _ _ _

/-- A protected-branch repository holding an empty-tree commit, for
exercising the record-preserving advances. -/
def c2SuccState : RepoState :=
  { head := "dev",
    branches := [("dev", .record (Jobj.ofList
      [("commit", .str "h0"), ("password_hash", .str "PH")]))],
    objects := [("cccccccc01", mkCommitContent "tttttttt01" none "m" "T0"),
                ("tttttttt01", mkTreeContent [])],
    index := [], workdir := [], workRoot := "/w" }

/-- C2 amended witness. -/
theorem c2_amended_checkout_pull_preserve_password_witness :
    (∃ h', List.lookup "dev" (checkout_commit c2SuccState "cccccccc01").2.branches =
      some (.record ((Jobj.ofList [("commit", .str "h0"), ("password_hash", .str "PH")]).set
        "commit" (.str h')))  ∧
      ((Jobj.ofList [("commit", .str "h0"), ("password_hash", .str "PH")]).set
        "commit" (.str h')).get "password_hash" =
        (Jobj.ofList [("commit", .str "h0"), ("password_hash", .str "PH")]).get
          "password_hash") := by
  exact (c2_amended_checkout_pull_preserve_password c2SuccState "cccccccc01" id "T"
    (Jobj.ofList [("commit", .str "h0"), ("password_hash", .str "PH")])
    (by decide)).1 (by decide)

/-- A repository storing a commit with full hash "aabbccddee" and its
(empty) tree. -/
def c3State : RepoState :=
  { head := "master", branches := [("master", .bare "aabbccddee")],
    objects := [("aabbccddee", mkCommitContent "tttttttt01" none "m" "T0"),
                ("tttttttt01", mkTreeContent [])],
    index := [], workdir := [], workRoot := "/w" }

/-- C3 counterexample: "aa" is a length-2 prefix of the stored commit
hash "aabbccddee", yet checkout_commit (and show_commit) reject it as
CommitNotFound, because the code only attempts resolution for
references of length at least 8 (repo.py line 502). -/
theorem c3_short_prefix_rejected :
    ("aa".data.isPrefixOf "aabbccddee".data = true) ∧
    (List.lookup "aabbccddee" c3State.objects).isSome = true ∧
    (checkout_commit c3State "aa").1.success = false ∧
    (checkout_commit c3State "aa").1.message = "Commit 'aa' not found" ∧
    (show_commit c3State "aa").success = false ∧
    (checkout_commit c3State "aabbccddee").1.success = true := by
  refine ⟨by decide, by decide, rfl, rfl, rfl, rfl⟩

/-- C3 amended: hash-prefix resolution requires at least 8 characters
(not 2): any prefix of length ≥ 8 of a stored hash resolves to a stored
object whose full hash starts with it, while every shorter reference is
rejected as not found by checkout_commit and show_commit. -/
theorem c3_amended_prefix_resolution :
    (∀ (objects : List (String × Jval)) (p h : String),
      (List.lookup h objects).isSome → p.data <+: h.data → 8 ≤ p.length →
      ∃ h', resolveRef objects p = some h' ∧ p.data <+: h'.data ∧
        (List.lookup h' objects).isSome) ∧
    (∀ (st : RepoState) (p : String), p.length < 8 →
      (checkout_commit st p).1.success = false ∧ (checkout_commit st p).2 = st ∧
      (show_commit st p).success = false) := by
  constructor
  · intro objects p h hsome hpref hlen
    have hlen2 : 2 ≤ p.data.length := by
      have : p.length = p.data.length := rfl
      omega
    unfold resolveRef
    rw [if_pos hlen]
    match hlp : List.lookup p objects with
    | some v =>
      simp only []
      exact ⟨p, rfl, List.prefix_refl _, by simp [hlp]⟩
    | none =>
      simp only []
      obtain ⟨t, ht⟩ := hpref
      have hhp : h ∈ objects.map Prod.fst := by
        obtain ⟨v, hv⟩ := Option.isSome_iff_exists.mp hsome
        exact lookup_some_mem_fst h objects v hv
      have hpredh : (fun h' => pyTake 2 h' == pyTake 2 p &&
          (pyDrop 2 p).data.isPrefixOf (pyDrop 2 h').data) h = true := by
        simp only [Bool.and_eq_true, beq_iff_eq]
        constructor
        · show pyTake 2 h = pyTake 2 p
          unfold pyTake
          congr 1
          rw [← ht, List.take_append_of_le_length hlen2]
        · simp only [pyDrop, List.isPrefixOf_iff_prefix]
          rw [← ht, List.drop_append_of_le_length hlen2]
          exact ⟨t, rfl⟩
      have hfind : ((objects.map Prod.fst).find? (fun h' => pyTake 2 h' == pyTake 2 p &&
          (pyDrop 2 p).data.isPrefixOf (pyDrop 2 h').data)).isSome := by
        rw [List.find?_isSome]
        exact ⟨h, hhp, hpredh⟩
      obtain ⟨h2, hh2⟩ := Option.isSome_iff_exists.mp hfind
      rw [hh2]
      have hpred2 := List.find?_some hh2
      simp only [Bool.and_eq_true, beq_iff_eq] at hpred2
      have hmem2 := List.mem_of_find?_eq_some hh2
      have htk : pyTake 2 h2 = pyTake 2 p := hpred2.1
      have hdp : (pyDrop 2 p).data <+: (pyDrop 2 h2).data := by
        rw [← List.isPrefixOf_iff_prefix]
        exact hpred2.2
      have hcomb : pyTake 2 p ++ pyDrop 2 h2 = h2 := by
        rw [← htk]
        show (⟨h2.data.take 2 ++ h2.data.drop 2⟩ : String) = h2
        rw [List.take_append_drop]
      refine ⟨pyTake 2 p ++ pyDrop 2 h2, rfl, ?_, ?_⟩
      · rw [hcomb]
        obtain ⟨t2, ht2⟩ := hdp
        refine ⟨t2, ?_⟩
        have htk2 : List.take 2 h2.data = List.take 2 p.data := congrArg String.data htk
        have ht2' : List.drop 2 p.data ++ t2 = List.drop 2 h2.data := ht2
        calc p.data ++ t2
            = (List.take 2 p.data ++ List.drop 2 p.data) ++ t2 := by
              rw [List.take_append_drop]
          _ = List.take 2 p.data ++ (List.drop 2 p.data ++ t2) := by
              rw [List.append_assoc]
          _ = List.take 2 h2.data ++ List.drop 2 h2.data := by rw [ht2', ← htk2]
          _ = h2.data := List.take_append_drop 2 h2.data
      · rw [hcomb]
        exact mem_fst_lookup_isSome h2 objects hmem2
  · intro st p hlen
    have hres : resolveRef st.objects p = none := by
      unfold resolveRef
      rw [if_neg (by omega)]
    have hres2 : resolveRef st.objects p = none := hres
    refine ⟨?_, ?_, ?_⟩
    · unfold checkout_commit
      rw [hres]
    · unfold checkout_commit
      rw [hres]
    · unfold show_commit
      rw [hres]

/-- C3 amended witness. -/
theorem c3_amended_prefix_resolution_witness :
    (∃ h', resolveRef c3State.objects "aabbccdd" = some h' ∧
      "aabbccdd".data <+: h'.data ∧ (List.lookup h' c3State.objects).isSome) ∧
    (checkout_commit c3State "aa").1.success = false := by
  constructor
  · exact c3_amended_prefix_resolution.1 c3State.objects "aabbccdd" "aabbccddee"
      (by decide) (by decide) (by decide)
  · exact (c3_amended_prefix_resolution.2 c3State "aa" (by decide)).1

/-- Adjacency along the walk: the next entry's hash is the stored
parent pointer of the previous entry's commit. -/
def histStep (objects : List (String × Jval)) (e1 e2 : HistEntry) : Prop :=
  ∃ cobj, List.lookup e1.full_hash objects = some cobj ∧
    e2.full_hash = parentStrOf cobj

theorem walkHistory_eq_nil_of_lookup_none (objects : List (String × Jval))
    (cid : String) (visited : List String)
    (hguard : ¬(cid = "" ∨ visited.contains cid))
    (hl : List.lookup cid objects = none) :
    walkHistory objects cid visited = [] := by
  rw [walkHistory]
  rw [dif_pos hguard]
  split
  · rfl
  · next cobj heq => rw [hl] at heq; cases heq

theorem walkHistory_eq_cons_of_lookup_some (objects : List (String × Jval))
    (cid : String) (visited : List String) (cobj : Jval)
    (hguard : ¬(cid = "" ∨ visited.contains cid))
    (hl : List.lookup cid objects = some cobj) :
    walkHistory objects cid visited =
      mkHistEntry cid cobj ::
        walkHistory objects (parentStrOf cobj) (cid :: visited) := by
  rw [walkHistory]
  rw [dif_pos hguard]
  split
  · next heq => rw [hl] at heq; cases heq
  · next cobj2 heq =>
    rw [hl] at heq
    injection heq with heq
    rw [heq]

theorem walkHistory_eq_nil_of_guard (objects : List (String × Jval))
    (cid : String) (visited : List String)
    (hguard : ¬¬(cid = "" ∨ visited.contains cid)) :
    walkHistory objects cid visited = [] := by
  rw [walkHistory]
  rw [dif_neg hguard]

theorem walkHistory_spec (objects : List (String × Jval)) :
    ∀ (cid : String) (visited : List String),
    (∀ x ∈ walkHistory objects cid visited, ¬x.full_hash ∈ visited) ∧
    ((walkHistory objects cid visited).map HistEntry.full_hash).Nodup ∧
    List.Chain' (histStep objects) (walkHistory objects cid visited) ∧
    (∀ x ∈ (walkHistory objects cid visited).head?, x.full_hash = cid) := by
  intro cid visited
  induction cid, visited using walkHistory.induct objects with
  | case1 cid visited hguard hl =>
    rw [walkHistory_eq_nil_of_lookup_none objects cid visited hguard hl]
    simp
  | case2 cid visited hguard cobj hl ih =>
    rw [walkHistory_eq_cons_of_lookup_some objects cid visited cobj hguard hl]
    obtain ⟨ih1, ih2, ih3, ih4⟩ := ih
    have hcidnv : ¬cid ∈ visited := fun hmem =>
      hguard (Or.inr (List.elem_eq_true_of_mem hmem))
    have hfull : (mkHistEntry cid cobj).full_hash = cid := rfl
    refine ⟨?_, ?_, ?_, ?_⟩
    · intro x hx
      rcases List.mem_cons.mp hx with hx | hx
      · subst hx
        rw [hfull]
        exact hcidnv
      · intro hmem
        exact ih1 x hx (List.mem_cons_of_mem _ hmem)
    · rw [List.map_cons, List.nodup_cons]
      refine ⟨?_, ih2⟩
      intro hmem
      rw [hfull] at hmem
      obtain ⟨x, hx, hxf⟩ := List.mem_map.mp hmem
      exact ih1 x hx (by rw [hxf]; exact List.mem_cons_self _ _)
    · rw [List.chain'_cons']
      refine ⟨?_, ih3⟩
      intro y hy
      exact ⟨cobj, by rw [hfull]; exact hl, (ih4 y hy).symm ▸ rfl⟩
    · intro x hx
      simp only [List.head?_cons, Option.mem_def, Option.some.injEq] at hx
      rw [← hx, hfull]
  | case3 cid visited hguard =>
    rw [walkHistory_eq_nil_of_guard objects cid visited hguard]
    simp

/-- C8: the log walk visits each commit hash at most once — for every
branch, even with cyclic or corrupt parent links, the returned history
has pairwise-distinct full hashes and consecutive entries are linked by
stored parent pointers (the walk is a total function, so it terminates
on every input). -/
theorem c8_history_walk_visits_once (st : RepoState) (branch_name : String) :
    ((get_commit_history st branch_name).commits.map HistEntry.full_hash).Nodup ∧
    List.Chain' (histStep st.objects) (get_commit_history st branch_name).commits := by
  unfold get_commit_history
  match hb : List.lookup branch_name st.branches with
  | none => simp
  | some bf =>
    simp only []
    exact ⟨(walkHistory_spec st.objects _ []).2.1,
           (walkHistory_spec st.objects _ []).2.2.1⟩

/-- C10 witness. -/
theorem c10_blob_hash_covers_path_witness :
    compute_hash id (blobContent id "/w/a.txt" "x") ≠
      compute_hash id (blobContent id "/w/b.txt" "x") :=
  c10_blob_hash_covers_path id (fun _ _ h => h) "/w/a.txt" "/w/b.txt" "x" (by decide)

/-- A repository with one staged, existing file, for exercising the
index-clearing operations. -/
def c5State : RepoState :=
  { head := "master", branches := [("master", .bare "")], objects := [],
    index := ["a.txt"], workdir := [("a.txt", "x")], workRoot := "/w" }

/-- C5 witness. -/
theorem c5_index_cleared_witness :
    (commitOp id "T" c5State "m").2.index = [] :=
  c5_index_cleared.2.1 id "T" c5State "m" (by decide)
